import Mathlib

/-!
Verification of the 2D wave-equation finite-difference time-steppers
`vc1.c` (sequential `step`) and `vc6.c` (row-parallel `inner` + `step`)
of `wave_2d_fd_perf`.

Modelling choices:
* The flat `float *` buffers are modelled as total functions `ℤ → ℚ`
  from flat index to value; a store is a pointwise functional update.
* Floating-point arithmetic is modelled by exact rational arithmetic,
  preserving the operation structure of the C expressions.
* The C `for` loops become folds over the explicit list of loop
  indices, in loop order, so sequencing of in-place writes is kept.
* The pointer swap `tmp = f; f = fp; fp = tmp;` is modelled by a
  two-buffer memory state together with a Boolean role flag recording
  which of the two caller-supplied arrays is currently `f`.
-/

namespace Wave2D

/-- A flat field buffer: flat index to sample value. -/
abbrev Buf : Type := ℤ → ℚ

/-- A single in-place store into a flat buffer. -/
def writeCell (b : Buf) (n : ℤ) (v : ℚ) : Buf :=
  fun m => if m = n then v else b m

/-- The nine finite-difference coefficients, exactly the initialiser of
`fd_coeff[9]` in both `vc1.c` and `vc6.c`:
`{-924708642.0f/302702400/(dx*dx), ..., -735.0f/302702400/(dx*dx)}`. -/
def fd_coeff (dx : ℚ) : ℕ → ℚ
  | 0 => -924708642 / 302702400 / (dx * dx)
  | 1 => 538137600 / 302702400 / (dx * dx)
  | 2 => -94174080 / 302702400 / (dx * dx)
  | 3 => 22830080 / 302702400 / (dx * dx)
  | 4 => -5350800 / 302702400 / (dx * dx)
  | 5 => 1053696 / 302702400 / (dx * dx)
  | 6 => -156800 / 302702400 / (dx * dx)
  | 7 => 15360 / 302702400 / (dx * dx)
  | 8 => -735 / 302702400 / (dx * dx)
  | _ => 0

/-- The accumulation loop of `vc1.c` computing `f_xx`:
`f_xx = 2*fd_coeff[0]*f[i*nx+j]`, then for `k = 1..m`
`f_xx += fd_coeff[k]*(f[i*nx+j+k]+f[i*nx+j-k]+f[(i+k)*nx+j]+f[(i-k)*nx+j])`. -/
def fxxAcc (c : ℕ → ℚ) (f : Buf) (nx i j : ℤ) : ℕ → ℚ
  | 0 => 2 * c 0 * f (i * nx + j)
  | m + 1 =>
      fxxAcc c f nx i j m +
        c (m + 1) *
          (f (i * nx + j + ((m : ℤ) + 1)) + f (i * nx + j - ((m : ℤ) + 1)) +
           f ((i + ((m : ℤ) + 1)) * nx + j) + f ((i - ((m : ℤ) + 1)) * nx + j))

/-- The Laplacian value `f_xx` of `vc1.c`: the accumulation loop run for
taps `k = 1..8`. -/
def f_xx (c : ℕ → ℚ) (f : Buf) (nx i j : ℤ) : ℚ :=
  fxxAcc c f nx i j 8

/-- The fully unrolled Laplacian expression of `vc6.c`. -/
def f_xx6 (c : ℕ → ℚ) (f : Buf) (nx i j : ℤ) : ℚ :=
  2 * c 0 * f (i * nx + j) +
  c 1 * (f (i * nx + j + 1) + f (i * nx + j - 1) +
         f ((i + 1) * nx + j) + f ((i - 1) * nx + j)) +
  c 2 * (f (i * nx + j + 2) + f (i * nx + j - 2) +
         f ((i + 2) * nx + j) + f ((i - 2) * nx + j)) +
  c 3 * (f (i * nx + j + 3) + f (i * nx + j - 3) +
         f ((i + 3) * nx + j) + f ((i - 3) * nx + j)) +
  c 4 * (f (i * nx + j + 4) + f (i * nx + j - 4) +
         f ((i + 4) * nx + j) + f ((i - 4) * nx + j)) +
  c 5 * (f (i * nx + j + 5) + f (i * nx + j - 5) +
         f ((i + 5) * nx + j) + f ((i - 5) * nx + j)) +
  c 6 * (f (i * nx + j + 6) + f (i * nx + j - 6) +
         f ((i + 6) * nx + j) + f ((i - 6) * nx + j)) +
  c 7 * (f (i * nx + j + 7) + f (i * nx + j - 7) +
         f ((i + 7) * nx + j) + f ((i - 7) * nx + j)) +
  c 8 * (f (i * nx + j + 8) + f (i * nx + j - 8) +
         f ((i + 8) * nx + j) + f ((i - 8) * nx + j))

/-- Row indices of the interior loop: `for (i = 8; i < ny - 8; i++)`. -/
def rowIdx (ny : ℤ) : List ℤ :=
  (List.range (ny - 16).toNat).map (fun a : ℕ => 8 + (a : ℤ))

/-- Column indices of the interior loop: `for (j = 8; j < nxi + 8; j++)`. -/
def colIdx (nxi : ℤ) : List ℤ :=
  (List.range nxi.toNat).map (fun b : ℕ => 8 + (b : ℤ))

/-- All interior cells `(i, j)`, in the traversal order of the nested
loops (row-major, `i` outer). -/
def interiorCells (ny nxi : ℤ) : List (ℤ × ℤ) :=
  (rowIdx ny).flatMap (fun i => (colIdx nxi).map (fun j => (i, j)))

/-- One iteration of the interior loop body of `vc1.c`:
`fp[i*nx+j] = model_padded2_dt2[i*nx+j]*f_xx + 2*f[i*nx+j] - fp[i*nx+j]`. -/
def interiorWrite (c : ℕ → ℚ) (model f : Buf) (nx : ℤ) (acc : Buf)
    (p : ℤ × ℤ) : Buf :=
  writeCell acc (p.1 * nx + p.2)
    (model (p.1 * nx + p.2) * f_xx c f nx p.1 p.2 +
      2 * f (p.1 * nx + p.2) - acc (p.1 * nx + p.2))

/-- The interior double loop of `vc1.c` for one time step. -/
def stepInterior (c : ℕ → ℚ) (model f : Buf) (nx ny nxi : ℤ) (fp : Buf) :
    Buf :=
  (interiorCells ny nxi).foldl (interiorWrite c model f nx) fp

/-- Same for `vc6.c`, whose body uses the unrolled `f_xx` expression. -/
def interiorWrite6 (c : ℕ → ℚ) (model f : Buf) (nx : ℤ) (acc : Buf)
    (p : ℤ × ℤ) : Buf :=
  writeCell acc (p.1 * nx + p.2)
    (model (p.1 * nx + p.2) * f_xx6 c f nx p.1 p.2 +
      2 * f (p.1 * nx + p.2) - acc (p.1 * nx + p.2))

/-- The interior double loop of `vc6.c` for one time step.  The OpenMP
row parallelism is modelled by the sequential fold: each row writes a
set of cells disjoint from every other row and reads `f` only, so the
parallel execution computes the same buffer. -/
def stepInterior6 (c : ℕ → ℚ) (model f : Buf) (nx ny nxi : ℤ) (fp : Buf) :
    Buf :=
  (interiorCells ny nxi).foldl (interiorWrite6 c model f nx) fp

/-- Source indices: `for (i = 0; i < num_sources; i++)`. -/
def srcList (num_sources : ℤ) : List ℤ :=
  (List.range num_sources.toNat).map (fun s : ℕ => (s : ℤ))

/-- The flat cell written for source `s`:
`sx = sources_x[s] + 8; sy = sources_y[s] + 8;` at `fp[sy*nx+sx]`. -/
def srcCell (sources_x sources_y : ℤ → ℤ) (nx s : ℤ) : ℤ :=
  (sources_y s + 8) * nx + (sources_x s + 8)

/-- One iteration of the source loop:
`fp[sy*nx+sx] += model_padded2_dt2[sy*nx+sx]*sources[i*source_len+step]`. -/
def injectWrite (model sources : Buf) (sources_x sources_y : ℤ → ℤ)
    (nx source_len t : ℤ) (acc : Buf) (s : ℤ) : Buf :=
  writeCell acc (srcCell sources_x sources_y nx s)
    (acc (srcCell sources_x sources_y nx s) +
      model (srcCell sources_x sources_y nx s) *
        sources (s * source_len + t))

/-- The source-injection loop shared by `vc1.c` and `vc6.c`. -/
def injectSources (model sources : Buf) (sources_x sources_y : ℤ → ℤ)
    (nx source_len num_sources t : ℤ) (fp : Buf) : Buf :=
  (srcList num_sources).foldl
    (injectWrite model sources sources_x sources_y nx source_len t) fp

/-- One full time step of `vc1.c`: interior update, then source
injection, both writing into the `fp` buffer. -/
def oneStep (c : ℕ → ℚ) (model sources : Buf) (sources_x sources_y : ℤ → ℤ)
    (nx ny nxi source_len num_sources t : ℤ) (f fp : Buf) : Buf :=
  injectSources model sources sources_x sources_y nx source_len num_sources t
    (stepInterior c model f nx ny nxi fp)

/-- One full time step of `vc6.c` (the function `inner`). -/
def oneStep6 (c : ℕ → ℚ) (model sources : Buf) (sources_x sources_y : ℤ → ℤ)
    (nx ny nxi source_len num_sources t : ℤ) (f fp : Buf) : Buf :=
  injectSources model sources sources_x sources_y nx source_len num_sources t
    (stepInterior6 c model f nx ny nxi fp)

/-- The time loop with the pointer swap, over explicit memory: `a` and
`b` are the contents of the two caller-supplied arrays (originally `f`
and `fp`); the Boolean `r` records whether array `a` is currently the
`f` pointer.  Each iteration runs `body` for the current step index and
then swaps the pointers, i.e. flips `r`. -/
def stepLoopArr (body : ℤ → Buf → Buf → Buf) (t : ℤ) :
    ℕ → Bool → Buf → Buf → Bool × Buf × Buf
  | 0, r, a, b => (r, a, b)
  | n + 1, r, a, b =>
      if r then stepLoopArr body (t + 1) n false a (body t a b)
      else stepLoopArr body (t + 1) n true (body t b a) b

/-- The logical leapfrog evolution: `(current, previous)` field pair
after running `body` for the given number of steps, starting at step
index `t`.  The first component is always the most recently computed
time level. -/
def levelFrom (body : ℤ → Buf → Buf → Buf) (t : ℤ) :
    ℕ → Buf → Buf → Buf × Buf
  | 0, cur, prev => (cur, prev)
  | n + 1, cur, prev => levelFrom body (t + 1) n (body t cur prev) cur

/-- The `step` entry point of `vc1.c`.  Returns the final role flag
(`true` iff the `f` pointer still points at the array originally passed
as `f`) together with the final contents of the array originally passed
as `f` and of the array originally passed as `fp`. -/
def stepVC1 (nx ny nxi : ℤ) (model : Buf) (dx : ℚ) (sources : Buf)
    (sources_x sources_y : ℤ → ℤ) (num_sources source_len num_steps : ℤ)
    (f fp : Buf) : Bool × Buf × Buf :=
  stepLoopArr
    (oneStep (fd_coeff dx) model sources sources_x sources_y
      nx ny nxi source_len num_sources)
    0 num_steps.toNat true f fp

/-- The `step` entry point of `vc6.c`. -/
def stepVC6 (nx ny nxi : ℤ) (model : Buf) (dx : ℚ) (sources : Buf)
    (sources_x sources_y : ℤ → ℤ) (num_sources source_len num_steps : ℤ)
    (f fp : Buf) : Bool × Buf × Buf :=
  stepLoopArr
    (oneStep6 (fd_coeff dx) model sources sources_x sources_y
      nx ny nxi source_len num_sources)
    0 num_steps.toNat true f fp

/-! ## Helper lemmas about the loop embeddings -/

/-- The unrolled `vc6.c` Laplacian agrees with the accumulated `vc1.c`
Laplacian. -/
lemma f_xx6_eq_f_xx (c : ℕ → ℚ) (f : Buf) (nx i j : ℤ) :
    f_xx6 c f nx i j = f_xx c f nx i j := by
  norm_num [f_xx, f_xx6, fxxAcc]

/-- The tap accumulation written as a closed sum over the taps. -/
lemma fxxAcc_eq_sum (c : ℕ → ℚ) (f : Buf) (nx i j : ℤ) (m : ℕ) :
    fxxAcc c f nx i j m =
      2 * c 0 * f (i * nx + j) +
        ∑ k in Finset.Icc 1 m, c k *
          (f (i * nx + j + (k : ℤ)) + f (i * nx + j - (k : ℤ)) +
           f ((i + (k : ℤ)) * nx + j) + f ((i - (k : ℤ)) * nx + j)) := by
  induction m with
  | zero => simp [fxxAcc]
  | succ m ih =>
      rw [Finset.sum_Icc_succ_top (Nat.le_add_left 1 m)]
      simp only [fxxAcc, ih]
      push_cast
      ring

/-- Flat row-major addressing is injective while the column offset
stays inside one row. -/
lemma flat_index_inj (nx i j i2 j2 : ℤ) (hnx : 0 < nx) (hj0 : 0 ≤ j)
    (hjn : j < nx) (hj20 : 0 ≤ j2) (hj2n : j2 < nx)
    (h : i * nx + j = i2 * nx + j2) : i = i2 ∧ j = j2 := by
  rcases lt_trichotomy i i2 with hlt | heq | hgt
  · exfalso
    nlinarith [mul_le_mul_of_nonneg_right (show (1 : ℤ) ≤ i2 - i by omega)
      hnx.le]
  · subst heq
    exact ⟨rfl, by linarith⟩
  · exfalso
    nlinarith [mul_le_mul_of_nonneg_right (show (1 : ℤ) ≤ i - i2 by omega)
      hnx.le]

/-- A cell whose flat index is hit by none of the writes of the
interior fold keeps its value. -/
lemma foldl_interiorWrite_untouched (c : ℕ → ℚ) (model f : Buf) (nx : ℤ)
    (l : List (ℤ × ℤ)) (fp : Buf) (n : ℤ)
    (h : ∀ p ∈ l, p.1 * nx + p.2 ≠ n) :
    (l.foldl (interiorWrite c model f nx) fp) n = fp n := by
  induction l generalizing fp with
  | nil => rfl
  | cons p l ih =>
      simp only [List.foldl_cons]
      rw [ih _ (fun q hq => h q (List.mem_cons_of_mem p hq))]
      simp only [interiorWrite, writeCell]
      rw [if_neg (Ne.symm (h p (List.mem_cons_self p l)))]

/-- A cell written exactly once by the interior fold receives the
stencil update computed from the untouched input buffers. -/
lemma foldl_interiorWrite_at (c : ℕ → ℚ) (model f : Buf) (nx : ℤ)
    (l : List (ℤ × ℤ)) (fp : Buf) (i j : ℤ)
    (hmem : (i, j) ∈ l) (hnd : l.Nodup)
    (hinj : ∀ p ∈ l, p.1 * nx + p.2 = i * nx + j → p = (i, j)) :
    (l.foldl (interiorWrite c model f nx) fp) (i * nx + j) =
      model (i * nx + j) * f_xx c f nx i j + 2 * f (i * nx + j) -
        fp (i * nx + j) := by
  induction l generalizing fp with
  | nil => cases hmem
  | cons p l ih =>
      simp only [List.foldl_cons]
      rcases List.mem_cons.mp hmem with heq | hmem2
      · have hp : p = (i, j) := heq.symm
        subst hp
        have hnotin : (i, j) ∉ l := (List.nodup_cons.mp hnd).1
        rw [foldl_interiorWrite_untouched c model f nx l _ _
          (fun q hq hk =>
            hnotin (hinj q (List.mem_cons_of_mem _ hq) hk ▸ hq))]
        simp [interiorWrite, writeCell]
      · have hpne : p.1 * nx + p.2 ≠ i * nx + j := by
          intro hk
          have hp := hinj p (List.mem_cons_self p l) hk
          exact (List.nodup_cons.mp hnd).1 (hp ▸ hmem2)
        rw [ih _ hmem2 (List.nodup_cons.mp hnd).2
          (fun q hq => hinj q (List.mem_cons_of_mem p hq))]
        simp only [interiorWrite, writeCell]
        rw [if_neg (Ne.symm hpne)]

/-- Membership in the row-index list. -/
lemma mem_rowIdx (ny i : ℤ) : i ∈ rowIdx ny ↔ 8 ≤ i ∧ i < ny - 8 := by
  simp only [rowIdx, List.mem_map, List.mem_range]
  constructor
  · rintro ⟨x, hx, rfl⟩
    omega
  · rintro ⟨h1, h2⟩
    exact ⟨(i - 8).toNat, by omega, by omega⟩

/-- Membership in the column-index list. -/
lemma mem_colIdx (nxi j : ℤ) : j ∈ colIdx nxi ↔ 8 ≤ j ∧ j < nxi + 8 := by
  simp only [colIdx, List.mem_map, List.mem_range]
  constructor
  · rintro ⟨x, hx, rfl⟩
    omega
  · rintro ⟨h1, h2⟩
    exact ⟨(j - 8).toNat, by omega, by omega⟩

/-- Characterisation of membership in the interior cell list. -/
lemma mem_interiorCells (ny nxi i j : ℤ) :
    (i, j) ∈ interiorCells ny nxi ↔
      8 ≤ i ∧ i < ny - 8 ∧ 8 ≤ j ∧ j < nxi + 8 := by
  rw [interiorCells, List.mem_flatMap]
  constructor
  · rintro ⟨a, ha, hm⟩
    obtain ⟨b, hb, heq⟩ := List.mem_map.mp hm
    have h1 : a = i := congrArg Prod.fst heq
    have h2 : b = j := congrArg Prod.snd heq
    have hrow := (mem_rowIdx ny a).mp ha
    have hcol := (mem_colIdx nxi b).mp hb
    omega
  · rintro ⟨h1, h2, h3, h4⟩
    exact ⟨i, (mem_rowIdx ny i).mpr ⟨h1, h2⟩,
      List.mem_map.mpr ⟨j, (mem_colIdx nxi j).mpr ⟨h3, h4⟩, rfl⟩⟩

/-- The row-index list has no duplicates. -/
lemma rowIdx_nodup (ny : ℤ) : (rowIdx ny).Nodup :=
  (List.nodup_range _).map (fun x y hxy => by omega)

/-- The column-index list has no duplicates. -/
lemma colIdx_nodup (nxi : ℤ) : (colIdx nxi).Nodup :=
  (List.nodup_range _).map (fun x y hxy => by omega)

/-- The interior cell list has no duplicates. -/
lemma interiorCells_nodup (ny nxi : ℤ) : (interiorCells ny nxi).Nodup := by
  rw [interiorCells, List.nodup_flatMap]
  constructor
  · intro x _
    exact (colIdx_nodup nxi).map (fun u v h => congrArg Prod.snd h)
  · refine List.Pairwise.imp ?_ (rowIdx_nodup ny)
    intro a b hne q hqa hqb
    obtain ⟨u, _, rfl⟩ := List.mem_map.mp hqa
    obtain ⟨v, _, hv⟩ := List.mem_map.mp hqb
    exact hne (congrArg Prod.fst hv).symm

/-- Membership in the source-index list. -/
lemma mem_srcList (num_sources s : ℤ) :
    s ∈ srcList num_sources ↔ 0 ≤ s ∧ s < num_sources := by
  simp only [srcList, List.mem_map, List.mem_range]
  constructor
  · rintro ⟨x, hx, rfl⟩
    omega
  · rintro ⟨h1, h2⟩
    exact ⟨s.toNat, by omega, by omega⟩

/-- The source-index list has no duplicates. -/
lemma srcList_nodup (num_sources : ℤ) : (srcList num_sources).Nodup :=
  (List.nodup_range _).map (fun x y hxy => by omega)

/-- Running the injection fold adds, to each cell, the contributions of
exactly the sources targeting that cell, in list order. -/
lemma foldl_injectWrite_adds (model sources : Buf)
    (sources_x sources_y : ℤ → ℤ) (nx source_len t : ℤ)
    (l : List ℤ) (fp : Buf) (n : ℤ) :
    (l.foldl (injectWrite model sources sources_x sources_y nx source_len t)
        fp) n =
      fp n +
        ((l.filter (fun s => srcCell sources_x sources_y nx s = n)).map
          (fun s => model (srcCell sources_x sources_y nx s) *
            sources (s * source_len + t))).sum := by
  induction l generalizing fp with
  | nil => simp
  | cons s l ih =>
      simp only [List.foldl_cons, ih]
      by_cases h : srcCell sources_x sources_y nx s = n
      · rw [List.filter_cons_of_pos (by simpa using h)]
        simp only [injectWrite, writeCell, List.map_cons, List.sum_cons, h,
          if_pos rfl, if_true]
        ring
      · rw [List.filter_cons_of_neg (by simpa using h)]
        simp only [injectWrite, writeCell]
        rw [if_neg (fun hh => h hh.symm)]

/-- If exactly one list element targets the key of `s`, the filtered
contribution sum collapses to the contribution of `s`. -/
lemma filter_map_sum_single (g : ℤ → ℚ) (key : ℤ → ℤ) (l : List ℤ) (s : ℤ)
    (hmem : s ∈ l) (hnd : l.Nodup)
    (hinj : ∀ x ∈ l, key x = key s → x = s) :
    ((l.filter (fun x => key x = key s)).map g).sum = g s := by
  induction l with
  | nil => cases hmem
  | cons a l ih =>
      rcases List.mem_cons.mp hmem with heq | hmem2
      · subst heq
        have hnone : ∀ x ∈ l, ¬(key x = key s) := fun x hx hk =>
          (List.nodup_cons.mp hnd).1 ((hinj x (List.mem_cons_of_mem s hx) hk) ▸ hx)
        rw [List.filter_cons_of_pos (by simp)]
        have hnil : l.filter (fun x => key x = key s) = [] := by
          rw [List.filter_eq_nil_iff]
          intro x hx
          simpa using hnone x hx
        rw [hnil]
        simp
      · have hane : a ≠ s := fun h => (List.nodup_cons.mp hnd).1 (h ▸ hmem2)
        have hka : ¬(key a = key s) := fun h =>
          hane (hinj a (List.mem_cons_self a l) h)
        rw [List.filter_cons_of_neg (by simpa using hka)]
        exact ih hmem2 (List.nodup_cons.mp hnd).2
          (fun x hx => hinj x (List.mem_cons_of_mem a hx))

/-- The numerators and common denominator as the specification states
them, for comparison with the source initialiser `fd_coeff`. -/
def specNumer : ℕ → ℚ
  | 0 => -924708642
  | 1 => 538137600
  | 2 => -94174080
  | 3 => 22830080
  | 4 => -5350800
  | 5 => 1053696
  | 6 => -156800
  | 7 => 15360
  | 8 => -735
  | _ => 0

/-- C3: each of the nine coefficients equals the spec's fixed numerator
divided by the common denominator 302702400 and by `dx*dx`; the
derivation is once per call since `fd_coeff` depends only on `dx`,
which the time loop never changes. -/
theorem fd_coeff_values (dx : ℚ) (hdx : dx ≠ 0) (k : ℕ) (hk : k < 9) :
    fd_coeff dx k * (302702400 * (dx * dx)) = specNumer k := by
  interval_cases k <;> simp only [fd_coeff, specNumer] <;> field_simp

/-- Witness for C3 at `dx = 2`, `k = 0`. -/
theorem fd_coeff_values_witness :
    fd_coeff 2 0 * (302702400 * ((2 : ℚ) * 2)) = specNumer 0 :=
  fd_coeff_values 2 (by norm_num) 0 (by norm_num)

/-- Counterexample to C4 as stated: at `dx = 1` the quantity
`2*coeff[0] + 2*sum(coeff[1..8])*4` does not vanish (it equals
`1849417284 / 302702400`). -/
theorem c4_sum_as_stated_nonzero :
    ¬ (2 * fd_coeff 1 0 +
        2 * (fd_coeff 1 1 + fd_coeff 1 2 + fd_coeff 1 3 + fd_coeff 1 4 +
             fd_coeff 1 5 + fd_coeff 1 6 + fd_coeff 1 7 + fd_coeff 1 8) * 4
        = 0) := by
  norm_num [fd_coeff]

/-- C4 (amended): the central coefficient is negative, the stencil
applied to a constant field yields exactly `f_xx = 0`, and the correct
consistency sum `2*coeff[0] + 4*sum(coeff[1..8])` vanishes. -/
theorem fd_coeff_consistency (dx v : ℚ) (nx i j : ℤ) (hdx : dx ≠ 0) :
    fd_coeff dx 0 < 0 ∧
    f_xx (fd_coeff dx) (fun _ => v) nx i j = 0 ∧
    2 * fd_coeff dx 0 +
      4 * (fd_coeff dx 1 + fd_coeff dx 2 + fd_coeff dx 3 + fd_coeff dx 4 +
           fd_coeff dx 5 + fd_coeff dx 6 + fd_coeff dx 7 + fd_coeff dx 8)
      = 0 := by
  have hsq : dx * dx ≠ 0 := mul_ne_zero hdx hdx
  refine ⟨?_, ?_, ?_⟩
  · have : (0 : ℚ) < 924708642 / 302702400 / (dx * dx) := by
      apply div_pos (by norm_num)
      rcases lt_or_gt_of_ne hdx with h | h
      · exact mul_pos_of_neg_of_neg h h
      · exact mul_pos h h
    simp only [fd_coeff]
    rw [neg_div, neg_div]
    linarith
  · show fxxAcc (fd_coeff dx) (fun _ => v) nx i j 8 = 0
    simp only [fxxAcc, fd_coeff]
    field_simp
    ring
  · simp only [fd_coeff]
    field_simp
    norm_num

/-- Witness for C4's amended theorem at `dx = 1`, `v = 5`. -/
theorem fd_coeff_consistency_witness :
    fd_coeff 1 0 < 0 ∧
    f_xx (fd_coeff 1) (fun _ => (5 : ℚ)) 32 9 10 = 0 ∧
    2 * fd_coeff 1 0 +
      4 * (fd_coeff 1 1 + fd_coeff 1 2 + fd_coeff 1 3 + fd_coeff 1 4 +
           fd_coeff 1 5 + fd_coeff 1 6 + fd_coeff 1 7 + fd_coeff 1 8)
      = 0 :=
  fd_coeff_consistency 1 5 32 9 10 (by norm_num)

/-- C1: under the caller size invariant `nxi + 16 ≤ nx`, the interior
pass of a time step writes into the previous-buffer slot at each
interior `(i, j)` the value
`model_term(i,j) * f_xx + 2*current(i,j) - previous(i,j)`, where `f_xx`
is twice the central coefficient times the centre value plus, for each
tap `k = 1..8`, coefficient `k` times the sum of the four neighbours at
offset `k` in the +x, -x, +y, -y directions. -/
theorem interior_update_formula (dx : ℚ) (model f fp : Buf)
    (nx ny nxi i j : ℤ) (hx : nxi + 16 ≤ nx) (h8i : 8 ≤ i)
    (hiy : i < ny - 8) (h8j : 8 ≤ j) (hjx : j < nxi + 8) :
    stepInterior (fd_coeff dx) model f nx ny nxi fp (i * nx + j) =
      model (i * nx + j) *
        (2 * fd_coeff dx 0 * f (i * nx + j) +
          ∑ k in Finset.Icc 1 8, fd_coeff dx k *
            (f (i * nx + j + (k : ℤ)) + f (i * nx + j - (k : ℤ)) +
             f ((i + (k : ℤ)) * nx + j) + f ((i - (k : ℤ)) * nx + j))) +
      2 * f (i * nx + j) - fp (i * nx + j) := by
  have hnx : 0 < nx := by omega
  have hinj : ∀ p ∈ interiorCells ny nxi,
      p.1 * nx + p.2 = i * nx + j → p = (i, j) := by
    intro p hp hk
    have hb := (mem_interiorCells ny nxi p.1 p.2).mp (by rwa [Prod.mk.eta])
    have hij := flat_index_inj nx p.1 p.2 i j hnx (by omega) (by omega)
      (by omega) (by omega) hk
    rw [← Prod.mk.eta (p := p), hij.1, hij.2]
  rw [stepInterior, foldl_interiorWrite_at (fd_coeff dx) model f nx _ fp i j
    ((mem_interiorCells ny nxi i j).mpr ⟨h8i, hiy, h8j, hjx⟩)
    (interiorCells_nodup ny nxi) hinj, f_xx, fxxAcc_eq_sum]

/-- Witness for C1 on a 17x17 grid with one interior column. -/
theorem interior_update_formula_witness :
    stepInterior (fd_coeff 1) (fun _ => 1) (fun _ => 0) 17 17 1 (fun _ => 3)
        (8 * 17 + 8) =
      1 * (2 * fd_coeff 1 0 * 0 +
          ∑ k in Finset.Icc 1 8, fd_coeff 1 k * (0 + 0 + 0 + 0)) +
        2 * 0 - 3 :=
  interior_update_formula 1 (fun _ => 1) (fun _ => 0) (fun _ => 3) 17 17 1 8 8
    (by norm_num) (by norm_num) (by norm_num) (by norm_num) (by norm_num)

/-- C2: when the sources target pairwise distinct cells, the value of a
full time step at source cell `(sources_y[s]+8, sources_x[s]+8)` is the
interior-pass value there plus
`model_term(sy,sx) * sources[s][t]` — an additive correction applied
after all interior writes, never a reset. -/
theorem source_injection_additive (c : ℕ → ℚ) (model sources : Buf)
    (sources_x sources_y : ℤ → ℤ) (nx ny nxi source_len num_sources t : ℤ)
    (f fp : Buf) (s : ℤ) (hs0 : 0 ≤ s) (hs : s < num_sources)
    (hdistinct : ∀ s1, 0 ≤ s1 → s1 < num_sources →
      srcCell sources_x sources_y nx s1 = srcCell sources_x sources_y nx s →
        s1 = s) :
    oneStep c model sources sources_x sources_y nx ny nxi source_len
        num_sources t f fp (srcCell sources_x sources_y nx s) =
      stepInterior c model f nx ny nxi fp
          (srcCell sources_x sources_y nx s) +
        model (srcCell sources_x sources_y nx s) *
          sources (s * source_len + t) := by
  rw [oneStep, injectSources, foldl_injectWrite_adds]
  congr 1
  exact filter_map_sum_single
    (fun x => model (srcCell sources_x sources_y nx x) *
      sources (x * source_len + t))
    (srcCell sources_x sources_y nx) (srcList num_sources) s
    ((mem_srcList num_sources s).mpr ⟨hs0, hs⟩) (srcList_nodup num_sources)
    (fun x hx hk =>
      hdistinct x ((mem_srcList num_sources x).mp hx).1
        ((mem_srcList num_sources x).mp hx).2 hk)

/-- Witness for C2: one source on a 17x17 grid. -/
theorem source_injection_additive_witness :
    oneStep (fd_coeff 1) (fun _ => 1) (fun _ => 2) (fun _ => 0) (fun _ => 0)
        17 17 1 4 1 0 (fun _ => 0) (fun _ => 0)
        (srcCell (fun _ => 0) (fun _ => 0) 17 0) =
      stepInterior (fd_coeff 1) (fun _ => 1) (fun _ => 0) 17 17 1 (fun _ => 0)
          (srcCell (fun _ => 0) (fun _ => 0) 17 0) +
        (fun _ => (1 : ℚ)) (srcCell (fun _ => 0) (fun _ => 0) 17 0) *
          (fun _ => (2 : ℚ)) (0 * 4 + 0) :=
  source_injection_additive (fd_coeff 1) (fun _ => 1) (fun _ => 2)
    (fun _ => 0) (fun _ => 0) 17 17 1 4 1 0 (fun _ => 0) (fun _ => 0) 0
    (by norm_num) (by norm_num) (fun s1 h1 h2 _ => by omega)

/-- C10: for every cell `n`, the value after a full time step is the
interior-pass value at `n` plus the sum, in increasing source-index
order, of `model_term(n) * sources[s][t]` over exactly those sources
whose (possibly shared) target cell is `n`. -/
theorem source_accumulation (c : ℕ → ℚ) (model sources : Buf)
    (sources_x sources_y : ℤ → ℤ) (nx ny nxi source_len num_sources t : ℤ)
    (f fp : Buf) (n : ℤ) :
    oneStep c model sources sources_x sources_y nx ny nxi source_len
        num_sources t f fp n =
      stepInterior c model f nx ny nxi fp n +
        (((srcList num_sources).filter
            (fun s => srcCell sources_x sources_y nx s = n)).map
          (fun s => model n * sources (s * source_len + t))).sum := by
  rw [oneStep, injectSources, foldl_injectWrite_adds]
  congr 1
  apply congrArg List.sum
  apply List.map_congr_left
  intro s hsmem
  have hcell : srcCell sources_x sources_y nx s = n := by
    simpa using (List.mem_filter.mp hsmem).2
  rw [hcell]

/-- C6: with `num_steps = 0` the time loop body never runs, so both
buffers and the role flag are returned unchanged. -/
theorem zero_steps_noop (nx ny nxi : ℤ) (model : Buf) (dx : ℚ)
    (sources : Buf) (sources_x sources_y : ℤ → ℤ)
    (num_sources source_len : ℤ) (f fp : Buf) :
    stepVC1 nx ny nxi model dx sources sources_x sources_y
      num_sources source_len 0 f fp = (true, f, fp) :=
  rfl

/-- Unfolding of one loop iteration when array `a` is current. -/
lemma stepLoopArr_succ_true (body : ℤ → Buf → Buf → Buf) (t : ℤ) (n : ℕ)
    (a b : Buf) :
    stepLoopArr body t (n + 1) true a b =
      stepLoopArr body (t + 1) n false a (body t a b) :=
  rfl

/-- Unfolding of one loop iteration when array `b` is current. -/
lemma stepLoopArr_succ_false (body : ℤ → Buf → Buf → Buf) (t : ℤ) (n : ℕ)
    (a b : Buf) :
    stepLoopArr body t (n + 1) false a b =
      stepLoopArr body (t + 1) n true (body t b a) b :=
  rfl

/-- A flat cell no step body ever writes keeps its caller-supplied
value in both arrays across the whole time loop. -/
lemma stepLoopArr_untouched (body : ℤ → Buf → Buf → Buf) (n : ℤ)
    (hbody : ∀ t cur prev, body t cur prev n = prev n) :
    ∀ (k : ℕ) (t : ℤ) (r : Bool) (a b : Buf),
      (stepLoopArr body t k r a b).2.1 n = a n ∧
      (stepLoopArr body t k r a b).2.2 n = b n := by
  intro k
  induction k with
  | zero => intro t r a b; exact ⟨rfl, rfl⟩
  | succ k ih =>
      intro t r a b
      cases r
      · rw [stepLoopArr_succ_false]
        refine ⟨?_, (ih (t + 1) true (body t b a) b).2⟩
        rw [(ih (t + 1) true (body t b a) b).1, hbody]
      · rw [stepLoopArr_succ_true]
        refine ⟨(ih (t + 1) false a (body t a b)).1, ?_⟩
        rw [(ih (t + 1) false a (body t a b)).2, hbody]

/-- The interior pass leaves every cell outside the interior region
unchanged (under the caller size invariant). -/
lemma stepInterior_untouched (c : ℕ → ℚ) (model f : Buf)
    (nx ny nxi i j : ℤ) (hx : nxi + 16 ≤ nx) (hj0 : 0 ≤ j) (hjn : j < nx)
    (hout : ¬(8 ≤ i ∧ i < ny - 8 ∧ 8 ≤ j ∧ j < nxi + 8)) (fp : Buf) :
    stepInterior c model f nx ny nxi fp (i * nx + j) = fp (i * nx + j) := by
  rw [stepInterior]
  apply foldl_interiorWrite_untouched
  intro p hp hk
  have hb := (mem_interiorCells ny nxi p.1 p.2).mp (by rwa [Prod.mk.eta])
  have hnx : 0 < nx := by omega
  have hij := flat_index_inj nx p.1 p.2 i j hnx (by omega) (by omega)
    hj0 hjn hk
  exact hout (by omega)

/-- Source injection leaves every cell outside the interior region
unchanged when all source locations lie in the interior. -/
lemma injectSources_untouched (model sources : Buf)
    (sources_x sources_y : ℤ → ℤ) (nx ny nxi source_len num_sources t : ℤ)
    (i j : ℤ) (hx : nxi + 16 ≤ nx)
    (hsrc : ∀ s, 0 ≤ s → s < num_sources →
      0 ≤ sources_x s ∧ sources_x s < nxi ∧
      0 ≤ sources_y s ∧ sources_y s < ny - 16)
    (hj0 : 0 ≤ j) (hjn : j < nx)
    (hout : ¬(8 ≤ i ∧ i < ny - 8 ∧ 8 ≤ j ∧ j < nxi + 8)) (fp : Buf) :
    injectSources model sources sources_x sources_y nx source_len
        num_sources t fp (i * nx + j) = fp (i * nx + j) := by
  rw [injectSources, foldl_injectWrite_adds]
  have hnil : (srcList num_sources).filter
      (fun s => srcCell sources_x sources_y nx s = i * nx + j) = [] := by
    rw [List.filter_eq_nil_iff]
    intro s hsl
    have hsb := (mem_srcList num_sources s).mp hsl
    have hco := hsrc s hsb.1 hsb.2
    have hnx : 0 < nx := by omega
    simp only [decide_eq_true_eq]
    intro hk
    rw [srcCell] at hk
    have hij := flat_index_inj nx (sources_y s + 8) (sources_x s + 8) i j hnx
      (by omega) (by omega) hj0 hjn hk
    exact hout (by omega)
  rw [hnil]
  simp

/-- C7: when every source location lies in the interior and the caller
size invariant `nxi + 16 ≤ nx` holds, the stepper never writes any cell
outside `[8, ny-8) x [8, nxi+8)`: after the call both arrays still hold
their caller-supplied values there.  (The model array is read-only by
construction: no write to it appears in either source file.) -/
theorem frame_outside_interior (nx ny nxi : ℤ) (model : Buf) (dx : ℚ)
    (sources : Buf) (sources_x sources_y : ℤ → ℤ)
    (num_sources source_len num_steps : ℤ) (f fp : Buf) (i j : ℤ)
    (hx : nxi + 16 ≤ nx)
    (hsrc : ∀ s, 0 ≤ s → s < num_sources →
      0 ≤ sources_x s ∧ sources_x s < nxi ∧
      0 ≤ sources_y s ∧ sources_y s < ny - 16)
    (hj0 : 0 ≤ j) (hjn : j < nx)
    (hout : ¬(8 ≤ i ∧ i < ny - 8 ∧ 8 ≤ j ∧ j < nxi + 8)) :
    (stepVC1 nx ny nxi model dx sources sources_x sources_y num_sources
        source_len num_steps f fp).2.1 (i * nx + j) = f (i * nx + j) ∧
    (stepVC1 nx ny nxi model dx sources sources_x sources_y num_sources
        source_len num_steps f fp).2.2 (i * nx + j) = fp (i * nx + j) := by
  apply stepLoopArr_untouched
  intro t cur prev
  rw [oneStep, injectSources_untouched model sources sources_x sources_y nx
    ny nxi source_len num_sources t i j hx hsrc hj0 hjn hout,
    stepInterior_untouched (fd_coeff dx) model cur nx ny nxi i j hx hj0 hjn
      hout prev]

/-- Witness for C7: a halo cell `(0, 0)` on a 17x17 grid with one
interior source, two time steps. -/
theorem frame_outside_interior_witness :
    (stepVC1 17 17 1 (fun _ => 1) 1 (fun _ => 2) (fun _ => 0) (fun _ => 0)
        1 4 2 (fun n => n) (fun n => 2 * n)).2.1 (0 * 17 + 0) =
      (fun n : ℤ => (n : ℚ)) (0 * 17 + 0) ∧
    (stepVC1 17 17 1 (fun _ => 1) 1 (fun _ => 2) (fun _ => 0) (fun _ => 0)
        1 4 2 (fun n => n) (fun n => 2 * n)).2.2 (0 * 17 + 0) =
      (fun n : ℤ => 2 * (n : ℚ)) (0 * 17 + 0) :=
  frame_outside_interior 17 17 1 (fun _ => 1) 1 (fun _ => 2) (fun _ => 0)
    (fun _ => 0) 1 4 2 (fun n => n) (fun n => 2 * n) 0 0 (by norm_num)
    (fun s h1 h2 => by norm_num) (by norm_num) (by norm_num) (by norm_num)

/-- C9: with `num_steps < 0` the loop condition `step < num_steps`
fails at once, so the call behaves exactly as `num_steps = 0`: both
buffers and the role flag are unchanged. -/
theorem negative_steps_noop (nx ny nxi : ℤ) (model : Buf) (dx : ℚ)
    (sources : Buf) (sources_x sources_y : ℤ → ℤ)
    (num_sources source_len num_steps : ℤ) (f fp : Buf)
    (h : num_steps < 0) :
    stepVC1 nx ny nxi model dx sources sources_x sources_y
      num_sources source_len num_steps f fp = (true, f, fp) ∧
    stepVC1 nx ny nxi model dx sources sources_x sources_y
      num_sources source_len num_steps f fp =
      stepVC1 nx ny nxi model dx sources sources_x sources_y
        num_sources source_len 0 f fp := by
  have h0 : num_steps.toNat = 0 := Int.toNat_of_nonpos h.le
  refine ⟨?_, ?_⟩ <;> simp [stepVC1, h0, stepLoopArr]

/-- Witness for C9 at `num_steps = -3`. -/
theorem negative_steps_noop_witness :
    stepVC1 32 32 16 (fun _ => 1) 1 (fun _ => 0) (fun _ => 0) (fun _ => 0)
      0 10 (-3) (fun _ => 0) (fun _ => 2) = (true, fun _ => 0, fun _ => 2) ∧
    stepVC1 32 32 16 (fun _ => 1) 1 (fun _ => 0) (fun _ => 0) (fun _ => 0)
      0 10 (-3) (fun _ => 0) (fun _ => 2) =
      stepVC1 32 32 16 (fun _ => 1) 1 (fun _ => 0) (fun _ => 0) (fun _ => 0)
        0 10 0 (fun _ => 0) (fun _ => 2) :=
  negative_steps_noop 32 32 16 (fun _ => 1) 1 (fun _ => 0) (fun _ => 0)
    (fun _ => 0) 0 10 (-3) (fun _ => 0) (fun _ => 2) (by norm_num)

/-- The memory-plus-pointer-swap loop refines the logical leapfrog
evolution: the role flag equals the parity of the step count, and the
two array contents are the logical `(current, previous)` pair arranged
according to that parity. -/
lemma stepLoopArr_eq_levelFrom (body : ℤ → Buf → Buf → Buf) :
    ∀ (n : ℕ) (t : ℤ) (r : Bool) (a b : Buf),
      stepLoopArr body t n r a b =
        if r then
          (if n % 2 = 0
           then (true, (levelFrom body t n a b).1, (levelFrom body t n a b).2)
           else (false, (levelFrom body t n a b).2, (levelFrom body t n a b).1))
        else
          (if n % 2 = 0
           then (false, (levelFrom body t n b a).2, (levelFrom body t n b a).1)
           else (true, (levelFrom body t n b a).1, (levelFrom body t n b a).2)) := by
  intro n
  induction n with
  | zero =>
      intro t r a b
      cases r <;> simp [stepLoopArr, levelFrom]
  | succ n ih =>
      intro t r a b
      cases r
      · rw [stepLoopArr_succ_false, ih]
        have hl : levelFrom body t (n + 1) b a =
            levelFrom body (t + 1) n (body t b a) b := rfl
        by_cases h : n % 2 = 0
        · have h2 : ¬((n + 1) % 2 = 0) := by omega
          simp [h, h2, hl]
        · have h2 : (n + 1) % 2 = 0 := by omega
          simp [h, h2, hl]
      · rw [stepLoopArr_succ_true, ih]
        have hl : levelFrom body t (n + 1) a b =
            levelFrom body (t + 1) n (body t a b) a := rfl
        by_cases h : n % 2 = 0
        · have h2 : ¬((n + 1) % 2 = 0) := by omega
          simp [h, h2, hl]
        · have h2 : (n + 1) % 2 = 0 := by omega
          simp [h, h2, hl]

/-- C5: the buffers exchange roles exactly once per step, so after the
call the role flag equals the parity of the step count, and the most
recently computed time level — the first component of the logical
leapfrog evolution `levelFrom` — lives in the array originally passed
as `previous` when `num_steps` is odd and in the array originally
passed as `current` when it is even.  No data is copied: only the
arrangement of the two logical levels over the two arrays changes. -/
theorem buffer_role_parity (nx ny nxi : ℤ) (model : Buf) (dx : ℚ)
    (sources : Buf) (sources_x sources_y : ℤ → ℤ)
    (num_sources source_len num_steps : ℤ) (f fp : Buf) :
    stepVC1 nx ny nxi model dx sources sources_x sources_y num_sources
        source_len num_steps f fp =
      (if num_steps.toNat % 2 = 0
       then (true,
         (levelFrom (oneStep (fd_coeff dx) model sources sources_x sources_y
            nx ny nxi source_len num_sources) 0 num_steps.toNat f fp).1,
         (levelFrom (oneStep (fd_coeff dx) model sources sources_x sources_y
            nx ny nxi source_len num_sources) 0 num_steps.toNat f fp).2)
       else (false,
         (levelFrom (oneStep (fd_coeff dx) model sources sources_x sources_y
            nx ny nxi source_len num_sources) 0 num_steps.toNat f fp).2,
         (levelFrom (oneStep (fd_coeff dx) model sources sources_x sources_y
            nx ny nxi source_len num_sources) 0 num_steps.toNat f fp).1)) := by
  rw [stepVC1, stepLoopArr_eq_levelFrom]
  simp

/-- The two interior-loop bodies coincide. -/
lemma interiorWrite6_eq (c : ℕ → ℚ) (model f : Buf) (nx : ℤ) :
    interiorWrite6 c model f nx = interiorWrite c model f nx := by
  funext acc p
  rw [interiorWrite6, interiorWrite, f_xx6_eq_f_xx]

/-- C8: the sequential variant (`vc1.c`) and the row-parallel variant
(`vc6.c`) compute identical final contents of both field buffers on
every input; both are functions of their inputs, hence deterministic. -/
theorem variants_equal (nx ny nxi : ℤ) (model : Buf) (dx : ℚ)
    (sources : Buf) (sources_x sources_y : ℤ → ℤ)
    (num_sources source_len num_steps : ℤ) (f fp : Buf) :
    stepVC6 nx ny nxi model dx sources sources_x sources_y num_sources
        source_len num_steps f fp =
      stepVC1 nx ny nxi model dx sources sources_x sources_y num_sources
        source_len num_steps f fp := by
  rw [stepVC6, stepVC1]
  have hb : oneStep6 (fd_coeff dx) model sources sources_x sources_y
      nx ny nxi source_len num_sources =
      oneStep (fd_coeff dx) model sources sources_x sources_y
        nx ny nxi source_len num_sources := by
    funext t cur prev
    rw [oneStep6, oneStep, stepInterior6, stepInterior, interiorWrite6_eq]
  rw [hb]

end Wave2D
